import Mathlib

/-!
Verification of the garden sunlight mapper (p5.js sketch).

The development shallowly embeds the two algorithmic components of the
sketch:

* the exposure aggregator `generateHeatMap`, which turns a list of RGBA
  pixel buffers and a brightness threshold into a grayscale heat map
  (stored, as in the source, as a flat RGBA byte array built by in-place
  writes), and

* the placement search: `calculateRectangleScore` (sum of heat-map values
  under a floor-bounded half-open rectangle) and the greedy 8-neighbour
  hill-climb step performed by `draw` on the `movingRectangle` state.

JavaScript numbers on the relevant code paths are embedded as exact
rationals (`ℚ`); 8-bit samples as `ℕ`.  Out-of-range JavaScript array
reads yield `undefined`, which the brightness comparison `NaN > t`
turns into `false`; reads are therefore embedded as `Option` lookups.
Stores into the heat map's `Uint8ClampedArray` follow the ECMAScript
`ToUint8Clamp` conversion: clamp to `[0, 255]`, round to nearest, ties
to even.
-/

namespace Garden

/-- A loaded image (p5.Image): its dimensions and a flat row-major RGBA
sample list, one `ℕ` per 8-bit channel. -/
structure PImage where
  width : ℕ
  height : ℕ
  pixels : List ℕ

/-- Brightness test of one image at pixel `(x, y)`, from the inner loop of
`generateHeatMap`: read R, G, B at `(x + y * img.width) * 4`, form the
BT.601 luma `0.299*R + 0.587*G + 0.114*B`, and compare it strictly against
the threshold.  A read past the end of the pixel array gives `undefined`
in JavaScript and the `NaN` comparison is false, embedded here by the
wildcard branch. -/
def isSunny (img : PImage) (t : ℚ) (x y : ℕ) : Bool :=
  let base := (x + y * img.width) * 4
  match img.pixels[base]?, img.pixels[base + 1]?, img.pixels[base + 2]? with
  | some r, some g, some b =>
      decide (t < (299 / 1000 : ℚ) * r + (587 / 1000 : ℚ) * g + (114 / 1000 : ℚ) * b)
  | _, _, _ => false

/-- Number of images whose pixel at `(x, y)` is sunny (the `sunnyCount`
accumulator of `generateHeatMap`). -/
def sunnyCount (imgs : List PImage) (t : ℚ) (x y : ℕ) : ℕ :=
  List.countP (fun img => isSunny img t x y) imgs

/-- The p5.js `map(value, start1, stop1, start2, stop2)` helper (linear
rescale, no clamping, no rounding). -/
def mapRange (v a1 b1 a2 b2 : ℚ) : ℚ :=
  a2 + (b2 - a2) * ((v - a1) / (b1 - a1))

/-- Round to the nearest integer, ties to even (the rounding used by the
ECMAScript `ToUint8Clamp` conversion). -/
def roundTiesEven (q : ℚ) : ℤ :=
  if (⌊q⌋ : ℚ) + 1 / 2 < q then ⌊q⌋ + 1
  else if q < (⌊q⌋ : ℚ) + 1 / 2 then ⌊q⌋
  else if Even ⌊q⌋ then ⌊q⌋ else ⌊q⌋ + 1

/-- ECMAScript `ToUint8Clamp`: the value actually stored when a number is
assigned into a `Uint8ClampedArray` element (as `heatMap.pixels[i] = v`
does): clamp to `[0, 255]`, round to nearest, ties to even. -/
def toU8Clamp (q : ℚ) : ℕ :=
  if q ≤ 0 then 0
  else if 255 ≤ q then 255
  else (roundTiesEven q).toNat

/-- The grayscale value computed for pixel `(x, y)` by `generateHeatMap`:
`map(sunnyCount, 0, totalImages, 0, 255)` stored through `ToUint8Clamp`.
`total` is the sketch's `totalImages` constant. -/
def heatValue (imgs : List PImage) (total : ℕ) (t : ℚ) (x y : ℕ) : ℕ :=
  toU8Clamp (mapRange (sunnyCount imgs t x y) 0 total 0 255)

/-- The four stores of one `generateHeatMap` iteration: write the
grayscale value to R, G, B and `255` to alpha at `(x + y * W) * 4`. -/
def writePixel (imgs : List PImage) (total : ℕ) (t : ℚ) (W : ℕ)
    (st : List ℕ) (x y : ℕ) : List ℕ :=
  let index := (x + y * W) * 4
  let v := heatValue imgs total t x y
  (((st.set index v).set (index + 1) v).set (index + 2) v).set (index + 3) 255

/-- The inner `y` loop of `generateHeatMap`: process one column `x`. -/
def writeColumn (imgs : List PImage) (total : ℕ) (t : ℚ) (W H : ℕ)
    (st : List ℕ) (x : ℕ) : List ℕ :=
  (List.range H).foldl (fun s y => writePixel imgs total t W s x y) st

/-- The synchronous `generateHeatMap`: starting from the all-zero pixel
array of a fresh `createImage(W, H)`, process every column in order. -/
def generateHeatMap (imgs : List PImage) (total : ℕ) (t : ℚ) (W H : ℕ) : List ℕ :=
  (List.range W).foldl (writeColumn imgs total t W H) (List.replicate (W * H * 4) 0)

/-- The chunked (asynchronous) `generateHeatMap`: the column indices are
processed in groups, the host yielding control between groups (the
variant awaits a resolved promise after every 20th column).  The yield
itself runs no sketch code, so a chunk boundary is a pure no-op on the
pixel state. -/
def generateHeatMapChunked (imgs : List PImage) (total : ℕ) (t : ℚ) (W H : ℕ)
    (chunks : List (List ℕ)) : List ℕ :=
  chunks.foldl (fun st ch => ch.foldl (writeColumn imgs total t W H) st)
    (List.replicate (W * H * 4) 0)

/-- The error kind the specification assigns to mismatched buffer sizes. -/
inductive AggError where
  | dimensionMismatch

/-- A call of `generateHeatMap` as observed by its caller: the function
body contains no `throw` and no dimension check, so the call always
returns normally with the computed pixel array. -/
def generateHeatMapRun (imgs : List PImage) (total : ℕ) (t : ℚ) (W H : ℕ) :
    Except AggError (List ℕ) :=
  Except.ok (generateHeatMap imgs total t W H)

/-- The finished heat map: canvas dimensions plus its flat RGBA pixel
array (the sketch's `heatMap` together with the globals `width` and
`height`). -/
structure HeatMap where
  width : ℕ
  height : ℕ
  pixels : List ℕ

/-- The integer values `a, a+1, ..., b-1` that a JavaScript
`for (i = a; i < b; i++)` loop visits. -/
def intRange (a b : ℤ) : List ℤ :=
  (List.range (b - a).toNat).map (fun (k : ℕ) => a + (k : ℤ))

/-- Heat-map cell read of `calculateRectangleScore`: the R channel at
`(i + j * width) * 4` (indices are nonnegative at every call site, the
loop guard having checked bounds). -/
def cellAt (hm : HeatMap) (i j : ℤ) : ℕ :=
  hm.pixels.getD ((i.toNat + j.toNat * hm.width) * 4) 0

/-- `calculateRectangleScore(x, y, w, h)` on a present heat map: iterate
`i` from `floor(x - w/2)` (inclusive) to `floor(x + w/2)` (exclusive) and
`j` over the analogous `y` range, adding the heat-map value whenever
`(i, j)` lies inside the grid. -/
def calcScore (hm : HeatMap) (x y w h : ℚ) : ℕ :=
  (intRange ⌊x - w / 2⌋ ⌊x + w / 2⌋).foldl (fun acc i =>
    (intRange ⌊y - h / 2⌋ ⌊y + h / 2⌋).foldl (fun acc2 j =>
      if 0 ≤ i ∧ i < (hm.width : ℤ) ∧ 0 ≤ j ∧ j < (hm.height : ℤ) then
        acc2 + cellAt hm i j
      else acc2) acc) 0

/-- `calculateRectangleScore` of the guarded sketch variant: the function
begins with `if (!heatMap) return 0`, so an absent heat map scores 0. -/
def calculateRectangleScore (ohm : Option HeatMap) (x y w h : ℚ) : ℕ :=
  match ohm with
  | none => 0
  | some hm => calcScore hm x y w h

/-- The 8 unit offsets tried by one hill-climb step, in source order:
N, NE, E, SE, S, SW, W, NW. -/
def directions : List (ℤ × ℤ) :=
  [(0, -1), (1, -1), (1, 0), (1, 1), (0, 1), (-1, 1), (-1, 0), (-1, -1)]

/-- The candidate filter of the hill-climb step: the shifted rectangle
must lie fully inside the canvas
(`nx - w/2 >= 0 && nx + w/2 < width && ny - h/2 >= 0 && ny + h/2 < height`). -/
def inBoundsRect (hm : HeatMap) (nx ny w h : ℚ) : Bool :=
  decide (0 ≤ nx - w / 2) && decide (nx + w / 2 < (hm.width : ℚ)) &&
  decide (0 ≤ ny - h / 2) && decide (ny + h / 2 < (hm.height : ℚ))

/-- The `movingRectangle` search state: position, footprint, the stored
score, and the `searching` flag. -/
structure MovingRect where
  x : ℚ
  y : ℚ
  w : ℚ
  h : ℚ
  score : ℕ
  searching : Bool

/-- One hill-climb step, as performed by `draw` while
`movingRectangle.searching` holds: fold over the 8 directions keeping the
best (strictly improving) in-bounds candidate, then either move to it or
freeze.  A frozen state is left untouched (`draw` skips the block once
`movingRectangle` is cleared). -/
def hillStep (hm : HeatMap) (s : MovingRect) : MovingRect :=
  if s.searching then
    let best := directions.foldl (fun (best : ℕ × ℚ × ℚ) d =>
      let nx := s.x + d.1
      let ny := s.y + d.2
      if inBoundsRect hm nx ny s.w s.h then
        let sc := calcScore hm nx ny s.w s.h
        if best.1 < sc then (sc, nx, ny) else best
      else best) (s.score, s.x, s.y)
    if s.score < best.1 then
      { s with x := best.2.1, y := best.2.2, score := best.1 }
    else
      { s with searching := false }
  else s

/-- The state `mousePressed` creates: the clicked position with its score
computed by `calculateRectangleScore`, searching. -/
def mkMovingRect (hm : HeatMap) (x y w h : ℚ) : MovingRect :=
  { x := x, y := y, w := w, h := h, score := calcScore hm x y w h, searching := true }

/-- Iterate `n` hill-climb steps (one per `draw` frame). -/
def runClimb (hm : HeatMap) : ℕ → MovingRect → MovingRect
  | 0, s => s
  | n + 1, s => runClimb hm n (hillStep hm s)

/-! ### Hill-climb fold machinery -/

/-- The accumulator update of the hill-climb fold: replace the running
best `(score, x, y)` by a candidate exactly when the candidate's score is
strictly greater. -/
def updBest (b c : ℕ × ℚ × ℚ) : ℕ × ℚ × ℚ :=
  if b.1 < c.1 then c else b

/-- The in-bounds candidates of one hill-climb step, in direction order,
each paired with its score. -/
def candList (hm : HeatMap) (s : MovingRect) : List (ℕ × ℚ × ℚ) :=
  (directions.filter (fun d => inBoundsRect hm (s.x + d.1) (s.y + d.2) s.w s.h)).map
    (fun d => (calcScore hm (s.x + d.1) (s.y + d.2) s.w s.h, s.x + d.1, s.y + d.2))

/-- The best candidate the hill-climb fold settles on (starting from the
current score and position). -/
def bestCand (hm : HeatMap) (s : MovingRect) : ℕ × ℚ × ℚ :=
  (candList hm s).foldl updBest (s.score, s.x, s.y)

/-! ### Specification-side definitions -/

/-- The value a grid cell contributes to a rectangle score according to
the specification: its stored value when the cell index is inside the
grid bounds, 0 otherwise. -/
def boundedCellAt (hm : HeatMap) (i j : ℤ) : ℕ :=
  if 0 ≤ i ∧ i < (hm.width : ℤ) ∧ 0 ≤ j ∧ j < (hm.height : ℤ) then cellAt hm i j else 0

/-- Rectangle score as the specification words it: the sum of grid cell
values over exactly the cells with column index in
`[⌊cx - w/2⌋, ⌊cx + w/2⌋)` and row index in `[⌊cy - h/2⌋, ⌊cy + h/2⌋)`
(half-open, floor-based on all four edges), out-of-bounds cells
contributing 0. -/
def scoreSpec (hm : HeatMap) (x y w h : ℚ) : ℕ :=
  ∑ i ∈ Finset.Ico ⌊x - w / 2⌋ ⌊x + w / 2⌋,
    ∑ j ∈ Finset.Ico ⌊y - h / 2⌋ ⌊y + h / 2⌋, boundedCellAt hm i j

/-- One hill-climb step as the specification words it: evaluate the score
of the rectangle shifted by each of the 8 unit offsets in the fixed order
N, NE, E, SE, S, SW, W, NW; exclude (do not clamp) any candidate whose
rectangle would lie partially outside the grid; among the in-bounds
candidates select the one with the greatest score, ties broken by the
first direction in that order reaching the tying score; move only if the
selected candidate's score strictly exceeds the current score, otherwise
freeze. -/
def hillStepSpec (hm : HeatMap) (s : MovingRect) : MovingRect :=
  if s.searching then
    let cands := candList hm s
    match cands.find? (fun c => cands.all (fun c2 => decide (c2.1 ≤ c.1))) with
    | some c =>
        if s.score < c.1 then { s with x := c.2.1, y := c.2.2, score := c.1 }
        else { s with searching := false }
    | none => { s with searching := false }
  else s

/-- An all-zero (fully shaded) heat map of the given dimensions. -/
def zeroHeatMap (W H : ℕ) : HeatMap :=
  ⟨W, H, List.replicate (W * H * 4) 0⟩

/-- Brightness of a buffer's pixel at `(x, y)` as the specification words
it: `0.299*R + 0.587*G + 0.114*B` (ITU-R BT.601 weights), alpha ignored,
channels read row-major at `(x + y * width) * 4`. -/
def brightnessAt (img : PImage) (x y : ℕ) : ℚ :=
  let base := (x + y * img.width) * 4
  (299 / 1000 : ℚ) * img.pixels.getD base 0 +
    (587 / 1000 : ℚ) * img.pixels.getD (base + 1) 0 +
    (114 / 1000 : ℚ) * img.pixels.getD (base + 2) 0

/-- Claim-side sunny count: the number of buffers whose pixel at `(x, y)`
has brightness strictly greater than the threshold. -/
def sunnyCountSpec (imgs : List PImage) (t : ℚ) (x y : ℕ) : ℕ :=
  List.countP (fun img => decide (t < brightnessAt img x y)) imgs

/-! ### Concrete data for witnesses and counterexamples -/

/-- A 1×1 all-white buffer. -/
def whiteImg : PImage := ⟨1, 1, [255, 255, 255, 255]⟩

/-- A 1×1 all-black buffer. -/
def blackImg : PImage := ⟨1, 1, [0, 0, 0, 255]⟩

/-- Six equally-sized 1×1 buffers, exactly one of them sunny at
threshold 200. -/
def imgs6 : List PImage := [whiteImg, blackImg, blackImg, blackImg, blackImg, blackImg]

/-- A 2×1 all-white buffer (for the dimension-mismatch scenario). -/
def wideImg : PImage := ⟨2, 1, [255, 255, 255, 255, 255, 255, 255, 255]⟩

/-- A 5×5 heat map whose single cell `(2, 2)` holds 255 and whose other
cells hold 0 (alpha channels 255). -/
def hm5 : HeatMap :=
  ⟨5, 5, (List.range 100).map (fun k =>
    if k / 4 = 2 + 2 * 5 then 255 else
    if k % 4 = 3 then 255 else 0)⟩

/-- A 3×3 heat map with a bright cell at `(2, 2)` and a dimmer cell at
`(1, 1)` (alpha channels 255), used to exercise a moving hill climb. -/
def hm3 : HeatMap :=
  ⟨3, 3, (List.range 36).map (fun k =>
    if k / 4 = 2 + 2 * 3 then 255 else
    if k / 4 = 1 + 1 * 3 then (if k % 4 = 3 then 255 else 100) else
    if k % 4 = 3 then 255 else 0)⟩

/-! ### Termination measure for the hill climb -/

/-- The integer offsets `(a, b)` from the start position `(x0, y0)` whose
shifted rectangle lies fully inside the grid: every position the climb
can ever occupy differs from the start by such an offset. -/
def offsetBox (hm : HeatMap) (x0 y0 w h : ℚ) : Finset (ℤ × ℤ) :=
  Finset.Ico ⌈w / 2 - x0⌉ ⌈(hm.width : ℚ) - w / 2 - x0⌉ ×ˢ
    Finset.Ico ⌈h / 2 - y0⌉ ⌈(hm.height : ℚ) - h / 2 - y0⌉

/-- Number of in-bounds offsets scoring at least `sc`: a strictly
decreasing measure along accepted hill-climb moves. -/
def climbPotential (hm : HeatMap) (x0 y0 w h : ℚ) (sc : ℕ) : ℕ :=
  ((offsetBox hm x0 y0 w h).filter
    (fun ab => sc ≤ calcScore hm (x0 + ab.1) (y0 + ab.2) w h)).card

/-- Invariant carried along a hill climb started at `(x0, y0)` with
footprint `w × h`: the footprint is unchanged, the position differs from
the start by an integer offset and is in bounds, and the stored score is
the score of the stored position. -/
def climbInv (hm : HeatMap) (x0 y0 w h : ℚ) (s : MovingRect) : Prop :=
  s.w = w ∧ s.h = h ∧
    (∃ a b : ℤ, s.x = x0 + a ∧ s.y = y0 + b) ∧
    inBoundsRect hm s.x s.y w h = true ∧
    s.score = calcScore hm s.x s.y w h

/-- Once frozen, no in-bounds 8-neighbour of the state scores strictly
more than its stored score. -/
def frozenOptimal (hm : HeatMap) (s : MovingRect) : Prop :=
  s.searching = false →
    ∀ d ∈ directions, inBoundsRect hm (s.x + d.1) (s.y + d.2) s.w s.h = true →
      calcScore hm (s.x + d.1) (s.y + d.2) s.w s.h ≤ s.score

theorem guarded_foldl (hm : HeatMap) (s : MovingRect) :
    ∀ (l : List (ℤ × ℤ)) (b0 : ℕ × ℚ × ℚ),
    l.foldl (fun best d =>
      let nx := s.x + d.1
      let ny := s.y + d.2
      if inBoundsRect hm nx ny s.w s.h then
        let sc := calcScore hm nx ny s.w s.h
        if best.1 < sc then (sc, nx, ny) else best
      else best) b0 =
    ((l.filter (fun d => inBoundsRect hm (s.x + d.1) (s.y + d.2) s.w s.h)).map
      (fun d => (calcScore hm (s.x + d.1) (s.y + d.2) s.w s.h, s.x + d.1, s.y + d.2))).foldl
      updBest b0 := by
  intro l
  induction l with
  | nil => intro b0; rfl
  | cons a l ih =>
    intro b0
    simp only [List.foldl_cons, List.filter_cons]
    cases hb : inBoundsRect hm (s.x + a.1) (s.y + a.2) s.w s.h
    · simp only [hb, Bool.false_eq_true, if_false, cond_false]
      exact ih b0
    · simp only [hb, if_true, cond_true, List.map_cons, List.foldl_cons]
      rw [ih]
      rfl

/-- `hillStep` on a searching state, expressed through `bestCand`. -/
theorem hillStep_eq (hm : HeatMap) (s : MovingRect) (hs : s.searching = true) :
    hillStep hm s =
      if s.score < (bestCand hm s).1 then
        { s with x := (bestCand hm s).2.1, y := (bestCand hm s).2.2,
                 score := (bestCand hm s).1 }
      else { s with searching := false } := by
  unfold hillStep
  rw [if_pos hs, guarded_foldl hm s directions (s.score, s.x, s.y)]
  rfl

theorem updBest_fst_le (b c : ℕ × ℚ × ℚ) : b.1 ≤ (updBest b c).1 := by
  unfold updBest
  split
  · omega
  · exact le_refl _

theorem updFold_fst_le (l : List (ℕ × ℚ × ℚ)) :
    ∀ b0 : ℕ × ℚ × ℚ, b0.1 ≤ (l.foldl updBest b0).1 := by
  induction l with
  | nil => intro b0; exact le_refl _
  | cons a l ih =>
    intro b0
    exact le_trans (updBest_fst_le b0 a) (ih (updBest b0 a))

theorem updFold_eq_of_le (l : List (ℕ × ℚ × ℚ)) :
    ∀ b0 : ℕ × ℚ × ℚ, (l.foldl updBest b0).1 ≤ b0.1 → l.foldl updBest b0 = b0 := by
  induction l with
  | nil => intro b0 _; rfl
  | cons a l ih =>
    intro b0 hle
    rw [List.foldl_cons] at hle ⊢
    by_cases hba2 : b0.1 < a.1
    · exfalso
      have heq : updBest b0 a = a := by unfold updBest; rw [if_pos hba2]
      have h1 : (updBest b0 a).1 ≤ (l.foldl updBest (updBest b0 a)).1 :=
        updFold_fst_le l (updBest b0 a)
      rw [heq] at h1 hle
      omega
    · have heq : updBest b0 a = b0 := by unfold updBest; rw [if_neg hba2]
      rw [heq] at hle ⊢
      exact ih b0 hle

theorem updFold_le (l : List (ℕ × ℚ × ℚ)) :
    ∀ (b0 : ℕ × ℚ × ℚ), ∀ c ∈ l, c.1 ≤ (l.foldl updBest b0).1 := by
  induction l with
  | nil => intro b0 c hc; cases hc
  | cons a l ih =>
    intro b0 c hc
    rw [List.foldl_cons]
    rcases List.mem_cons.mp hc with hc | hc
    · subst hc
      refine le_trans ?_ (updFold_fst_le l (updBest b0 c))
      unfold updBest
      split
      · exact le_refl _
      · omega
    · exact ih (updBest b0 a) c hc

theorem updFold_mem (l : List (ℕ × ℚ × ℚ)) :
    ∀ b0 : ℕ × ℚ × ℚ, l.foldl updBest b0 = b0 ∨ l.foldl updBest b0 ∈ l := by
  induction l with
  | nil => intro b0; left; rfl
  | cons a l ih =>
    intro b0
    rw [List.foldl_cons]
    rcases ih (updBest b0 a) with h | h
    · rw [h]
      unfold updBest
      split
      · right; exact List.mem_cons_self a l
      · left; rfl
    · right; exact List.mem_cons_of_mem a h

theorem updFold_find (l : List (ℕ × ℚ × ℚ)) :
    ∀ b0 : ℕ × ℚ × ℚ, b0.1 < (l.foldl updBest b0).1 →
      l.find? (fun c => decide ((l.foldl updBest b0).1 ≤ c.1)) = some (l.foldl updBest b0) := by
  induction l with
  | nil => intro b0 h; exact absurd h (lt_irrefl _)
  | cons a l ih =>
    intro b0 hlt
    rw [List.foldl_cons] at hlt ⊢
    by_cases ha : b0.1 < a.1
    · have hba : updBest b0 a = a := by unfold updBest; rw [if_pos ha]
      rw [hba] at hlt ⊢
      by_cases hr : (l.foldl updBest a).1 ≤ a.1
      · have heq : l.foldl updBest a = a := updFold_eq_of_le l a hr
        rw [heq]
        exact List.find?_cons_of_pos l (by simp)
      · push_neg at hr
        rw [List.find?_cons_of_neg l (by simp; omega)]
        exact ih a hr
    · have hba : updBest b0 a = b0 := by unfold updBest; rw [if_neg ha]
      rw [hba] at hlt ⊢
      push_neg at ha
      rw [List.find?_cons_of_neg l (by simp; omega)]
      exact ih b0 hlt

theorem find?_congr {α : Type} {p q : α → Bool} :
    ∀ l : List α, (∀ a ∈ l, p a = q a) → l.find? p = l.find? q := by
  intro l
  induction l with
  | nil => intro _; rfl
  | cons a l ih =>
    intro h
    have ha := h a (List.mem_cons_self a l)
    cases hq : q a
    · rw [List.find?_cons_of_neg l (by rw [ha, hq]; simp),
        List.find?_cons_of_neg l (by rw [hq]; simp)]
      exact ih (fun b hb => h b (List.mem_cons_of_mem a hb))
    · rw [List.find?_cons_of_pos l (by rw [ha, hq]),
        List.find?_cons_of_pos l (by rw [hq])]

/-- Membership description of `candList`. -/
theorem candList_mem (hm : HeatMap) (s : MovingRect) (c : ℕ × ℚ × ℚ)
    (hc : c ∈ candList hm s) :
    (∃ d ∈ directions, c.2.1 = s.x + d.1 ∧ c.2.2 = s.y + d.2) ∧
      inBoundsRect hm c.2.1 c.2.2 s.w s.h = true ∧
      c.1 = calcScore hm c.2.1 c.2.2 s.w s.h := by
  unfold candList at hc
  rcases List.mem_map.mp hc with ⟨d, hd, hval⟩
  rcases List.mem_filter.mp hd with ⟨hdir, hbnd⟩
  subst hval
  exact ⟨⟨d, hdir, rfl, rfl⟩, hbnd, rfl⟩

/-- The candidate built from a direction is in `candList` when it passes
the bounds test. -/
theorem candList_of_dir (hm : HeatMap) (s : MovingRect) (d : ℤ × ℤ)
    (hd : d ∈ directions)
    (hb : inBoundsRect hm (s.x + d.1) (s.y + d.2) s.w s.h = true) :
    (calcScore hm (s.x + d.1) (s.y + d.2) s.w s.h, s.x + d.1, s.y + d.2) ∈ candList hm s := by
  unfold candList
  exact List.mem_map.mpr ⟨d, List.mem_filter.mpr ⟨hd, hb⟩, rfl⟩

/-! ### Claim C5: the hill-climb step is first-best steepest ascent -/

/-- Claim C5: each hill-climb step evaluates the 8 unit offsets in the
fixed order N, NE, E, SE, S, SW, W, NW (the literal `directions` list);
candidates partially outside the grid are excluded, not clamped; among
the in-bounds candidates the one with the strictly greatest score is
selected, ties broken by the first direction reaching the tying score;
and the rectangle moves only if the selected score strictly exceeds the
current score.  Formally: `directions` is that literal list, and
`hillStep` coincides with the specification's `hillStepSpec` on every
heat map and every state. -/
theorem hillStep_eq_hillStepSpec :
    directions = [(0, -1), (1, -1), (1, 0), (1, 1), (0, 1), (-1, 1), (-1, 0), (-1, -1)] ∧
      ∀ (hm : HeatMap) (s : MovingRect), hillStep hm s = hillStepSpec hm s := by
  refine ⟨rfl, ?_⟩
  intro hm s
  cases hs : s.searching
  · unfold hillStep hillStepSpec
    rw [hs]
    simp
  · rw [hillStep_eq hm s hs]
    unfold hillStepSpec
    rw [hs]
    simp only [if_true]
    by_cases hlt : s.score < (bestCand hm s).1
    · have hlt' : (s.score, s.x, s.y).1 <
          ((candList hm s).foldl updBest (s.score, s.x, s.y)).1 := hlt
      have hfind := updFold_find (candList hm s) (s.score, s.x, s.y) hlt'
      have hmemr : (candList hm s).foldl updBest (s.score, s.x, s.y) ∈ candList hm s := by
        rcases updFold_mem (candList hm s) (s.score, s.x, s.y) with h | h
        · exfalso
          rw [h] at hlt'
          exact lt_irrefl _ hlt'
        · exact h
      have hcong : (candList hm s).find?
            (fun c => (candList hm s).all (fun c2 => decide (c2.1 ≤ c.1))) =
          (candList hm s).find?
            (fun c => decide (((candList hm s).foldl updBest (s.score, s.x, s.y)).1 ≤ c.1)) := by
        apply find?_congr
        intro c _
        apply Bool.eq_iff_iff.mpr
        simp only [List.all_eq_true, decide_eq_true_eq]
        constructor
        · intro hall
          exact hall _ hmemr
        · intro hc c2 hc2
          exact le_trans (updFold_le (candList hm s) (s.score, s.x, s.y) c2 hc2) hc
      simp only [hcong, hfind]
      rfl
    · push_neg at hlt
      have heqr : (candList hm s).foldl updBest (s.score, s.x, s.y) = (s.score, s.x, s.y) :=
        updFold_eq_of_le (candList hm s) (s.score, s.x, s.y) hlt
      rw [if_neg (by omega : ¬ s.score < (bestCand hm s).1)]
      cases hfind : (candList hm s).find?
          (fun c => (candList hm s).all (fun c2 => decide (c2.1 ≤ c.1))) with
      | none => rfl
      | some c =>
        have hcmem := List.mem_of_find?_eq_some hfind
        have hcle : c.1 ≤ s.score := by
          have := updFold_le (candList hm s) (s.score, s.x, s.y) c hcmem
          unfold bestCand at hlt
          omega
        simp only [hfind]
        rw [if_neg (by omega : ¬ s.score < c.1)]

/-! ### Behaviour of one hill-climb step -/

theorem hillStep_not_searching (hm : HeatMap) (s : MovingRect) (hs : s.searching = false) :
    hillStep hm s = s := by
  unfold hillStep
  rw [hs]
  simp

theorem hillStep_w (hm : HeatMap) (s : MovingRect) : (hillStep hm s).w = s.w := by
  cases hs : s.searching
  · rw [hillStep_not_searching hm s hs]
  · rw [hillStep_eq hm s hs]
    split <;> rfl

theorem hillStep_h (hm : HeatMap) (s : MovingRect) : (hillStep hm s).h = s.h := by
  cases hs : s.searching
  · rw [hillStep_not_searching hm s hs]
  · rw [hillStep_eq hm s hs]
    split <;> rfl

/-- A searching state either freezes in place because no in-bounds
neighbour strictly improves the score, or moves to an in-bounds
neighbour with a strictly greater (and correctly recomputed) score. -/
theorem hillStep_cases (hm : HeatMap) (s : MovingRect) (hs : s.searching = true) :
    (hillStep hm s = { s with searching := false } ∧
      ∀ d ∈ directions, inBoundsRect hm (s.x + d.1) (s.y + d.2) s.w s.h = true →
        calcScore hm (s.x + d.1) (s.y + d.2) s.w s.h ≤ s.score) ∨
    ((hillStep hm s).searching = true ∧ s.score < (hillStep hm s).score ∧
      (∃ d ∈ directions, (hillStep hm s).x = s.x + d.1 ∧ (hillStep hm s).y = s.y + d.2) ∧
      inBoundsRect hm (hillStep hm s).x (hillStep hm s).y s.w s.h = true ∧
      (hillStep hm s).score = calcScore hm (hillStep hm s).x (hillStep hm s).y s.w s.h) := by
  rw [hillStep_eq hm s hs]
  by_cases hlt : s.score < (bestCand hm s).1
  · right
    rw [if_pos hlt]
    have hmemr : bestCand hm s ∈ candList hm s := by
      rcases updFold_mem (candList hm s) (s.score, s.x, s.y) with h | h
      · exfalso
        have : (bestCand hm s).1 = s.score := by
          unfold bestCand
          rw [h]
        omega
      · exact h
    obtain ⟨⟨d, hd, hx, hy⟩, hb, hsc⟩ := candList_mem hm s _ hmemr
    exact ⟨hs, hlt, ⟨d, hd, hx, hy⟩, hb, hsc⟩
  · left
    push_neg at hlt
    rw [if_neg (by omega : ¬ s.score < (bestCand hm s).1)]
    refine ⟨rfl, ?_⟩
    intro d hd hbnd
    have hmem := candList_of_dir hm s d hd hbnd
    have hle := updFold_le (candList hm s) (s.score, s.x, s.y) _ hmem
    have hle2 : calcScore hm (s.x + d.1) (s.y + d.2) s.w s.h ≤ (bestCand hm s).1 := hle
    omega

theorem hillStep_score_le (hm : HeatMap) (s : MovingRect) :
    s.score ≤ (hillStep hm s).score := by
  cases hs : s.searching
  · rw [hillStep_not_searching hm s hs]
  · rw [hillStep_eq hm s hs]
    by_cases hlt : s.score < (bestCand hm s).1
    · rw [if_pos hlt]
      exact le_of_lt hlt
    · rw [if_neg hlt]

theorem runClimb_score_le (hm : HeatMap) :
    ∀ (n : ℕ) (s : MovingRect), s.score ≤ (runClimb hm n s).score := by
  intro n
  induction n with
  | zero => intro s; exact le_refl _
  | succ n ih =>
    intro s
    exact le_trans (hillStep_score_le hm s) (ih (hillStep hm s))

theorem runClimb_not_searching (hm : HeatMap) :
    ∀ (n : ℕ) (s : MovingRect), s.searching = false → runClimb hm n s = s := by
  intro n
  induction n with
  | zero => intro s _; rfl
  | succ n ih =>
    intro s hs
    show runClimb hm n (hillStep hm s) = s
    rw [hillStep_not_searching hm s hs]
    exact ih s hs

/-! ### Claim C10: the stored score tracks the stored position -/

/-- Claim C10: `mousePressed` establishes the invariant that the stored
score equals the score of the stored position (searching), every
hill-climb step preserves that invariant, and every accepted step (one
that leaves the state searching) strictly increases the stored score. -/
theorem movingRect_invariant :
    (∀ (hm : HeatMap) (x y w h : ℚ),
      (mkMovingRect hm x y w h).score = calcScore hm x y w h ∧
        (mkMovingRect hm x y w h).searching = true) ∧
    (∀ (hm : HeatMap) (s : MovingRect),
      s.score = calcScore hm s.x s.y s.w s.h →
        (hillStep hm s).score =
          calcScore hm (hillStep hm s).x (hillStep hm s).y (hillStep hm s).w (hillStep hm s).h) ∧
    (∀ (hm : HeatMap) (s : MovingRect),
      s.searching = true → (hillStep hm s).searching = true →
        s.score < (hillStep hm s).score) := by
  refine ⟨fun hm x y w h => ⟨rfl, rfl⟩, ?_, ?_⟩
  · intro hm s hinv
    rw [hillStep_w, hillStep_h]
    cases hs : s.searching
    · rw [hillStep_not_searching hm s hs]
      exact hinv
    · rcases hillStep_cases hm s hs with ⟨hfr, _⟩ | ⟨_, _, _, _, hsc⟩
      · rw [hfr]
        exact hinv
      · exact hsc
  · intro hm s hs hsearch
    rcases hillStep_cases hm s hs with ⟨hfr, _⟩ | ⟨_, hlt, _⟩
    · exfalso
      rw [hfr] at hsearch
      simp at hsearch
    · exact hlt

/-- Witness for C10 at a concrete heat map and state: the clicked state
stores its computed score, and one step preserves the invariant. -/
theorem movingRect_invariant_witness :
    (mkMovingRect hm3 (1/2) (1/2) 1 1).score =
        calcScore hm3 (mkMovingRect hm3 (1/2) (1/2) 1 1).x
          (mkMovingRect hm3 (1/2) (1/2) 1 1).y (mkMovingRect hm3 (1/2) (1/2) 1 1).w
          (mkMovingRect hm3 (1/2) (1/2) 1 1).h ∧
      (hillStep hm3 (mkMovingRect hm3 (1/2) (1/2) 1 1)).score =
        calcScore hm3 (hillStep hm3 (mkMovingRect hm3 (1/2) (1/2) 1 1)).x
          (hillStep hm3 (mkMovingRect hm3 (1/2) (1/2) 1 1)).y
          (hillStep hm3 (mkMovingRect hm3 (1/2) (1/2) 1 1)).w
          (hillStep hm3 (mkMovingRect hm3 (1/2) (1/2) 1 1)).h :=
  ⟨rfl, movingRect_invariant.2.1 hm3 (mkMovingRect hm3 (1/2) (1/2) 1 1) rfl⟩

/-! ### List-fold bridging lemmas -/

theorem list_foldl_add {α : Type} (l : List α) (f : α → ℕ) (c : ℕ) :
    l.foldl (fun acc i => acc + f i) c = c + (l.map f).sum := by
  induction l generalizing c with
  | nil => simp
  | cons a l ih => simp [ih, Nat.add_assoc]

theorem Ico_int_succ_right (a b : ℤ) :
    Finset.Ico a (b + 1) = insert b (Finset.Ico a b) ∨ b + 1 ≤ a := by
  rcases le_or_lt a (b + 1) with hab | hab
  · rcases le_or_lt a b with hab2 | hab2
    · left
      ext k
      simp only [Finset.mem_Ico, Finset.mem_insert]
      omega
    · right
      omega
  · right
    omega

theorem sum_map_range_add (f : ℤ → ℕ) : ∀ (n : ℕ) (a : ℤ),
    (((List.range n).map (fun (k : ℕ) => a + (k : ℤ))).map f).sum =
      ∑ i ∈ Finset.Ico a (a + (n : ℤ)), f i := by
  intro n
  induction n with
  | zero => simp
  | succ n ih =>
    intro a
    rw [List.range_succ, List.map_append, List.map_append, List.sum_append, ih a]
    have hins : Finset.Ico a (a + (n : ℤ) + 1) = insert (a + (n : ℤ)) (Finset.Ico a (a + (n : ℤ))) := by
      rcases Ico_int_succ_right a (a + (n : ℤ)) with hcase | hcase
      · exact hcase
      · omega
    have hnotmem : (a + (n : ℤ)) ∉ Finset.Ico a (a + (n : ℤ)) := by
      simp [Finset.mem_Ico]
    have hcast : a + ((n : ℕ).succ : ℤ) = a + (n : ℤ) + 1 := by push_cast; ring
    rw [hcast, hins, Finset.sum_insert hnotmem]
    simp [Nat.add_comm]

theorem sum_map_intRange (f : ℤ → ℕ) (a b : ℤ) :
    ((intRange a b).map f).sum = ∑ i ∈ Finset.Ico a b, f i := by
  unfold intRange
  rcases le_or_lt a b with hab | hab
  · have hb : a + ((b - a).toNat : ℤ) = b := by omega
    rw [sum_map_range_add f (b - a).toNat a, hb]
  · have h0 : (b - a).toNat = 0 := by omega
    have he : Finset.Ico a b = ∅ := Finset.Ico_eq_empty (by omega)
    simp [h0, he]

/-! ### Claim C3: rectangle score equals the floor-bounded half-open sum -/

theorem calcScore_inner (hm : HeatMap) (h y : ℚ) (i : ℤ) (acc : ℕ) :
    (intRange ⌊y - h / 2⌋ ⌊y + h / 2⌋).foldl (fun acc2 j =>
      if 0 ≤ i ∧ i < (hm.width : ℤ) ∧ 0 ≤ j ∧ j < (hm.height : ℤ) then
        acc2 + cellAt hm i j
      else acc2) acc =
      acc + ∑ j ∈ Finset.Ico ⌊y - h / 2⌋ ⌊y + h / 2⌋, boundedCellAt hm i j := by
  have hbody : (fun (acc2 : ℕ) (j : ℤ) =>
      if 0 ≤ i ∧ i < (hm.width : ℤ) ∧ 0 ≤ j ∧ j < (hm.height : ℤ) then
        acc2 + cellAt hm i j
      else acc2) = fun acc2 j => acc2 + boundedCellAt hm i j := by
    funext acc2 j
    unfold boundedCellAt
    split <;> simp
  rw [hbody, list_foldl_add, sum_map_intRange]

theorem calcScore_sum (hm : HeatMap) (x y w h : ℚ) :
    calcScore hm x y w h = scoreSpec hm x y w h := by
  unfold calcScore scoreSpec
  have houter : (fun (acc : ℕ) (i : ℤ) =>
      (intRange ⌊y - h / 2⌋ ⌊y + h / 2⌋).foldl (fun acc2 j =>
        if 0 ≤ i ∧ i < (hm.width : ℤ) ∧ 0 ≤ j ∧ j < (hm.height : ℤ) then
          acc2 + cellAt hm i j
        else acc2) acc) =
      fun acc i => acc + ∑ j ∈ Finset.Ico ⌊y - h / 2⌋ ⌊y + h / 2⌋, boundedCellAt hm i j := by
    funext acc i
    exact calcScore_inner hm h y i acc
  rw [houter, list_foldl_add]
  simp only [Nat.zero_add]
  exact sum_map_intRange _ _ _

/-- Claim C3: for every grid and every rectangle `{cx, cy, w, h}`,
`calculateRectangleScore` equals the sum of grid cell values over exactly
the cells with column index in `[⌊cx - w/2⌋, ⌊cx + w/2⌋)` and row index in
`[⌊cy - h/2⌋, ⌊cy + h/2⌋)` (half-open, floor-based on all four edges),
cells outside the grid bounds contributing 0. -/
theorem calcScore_eq_scoreSpec (hm : HeatMap) (x y w h : ℚ) :
    calcScore hm x y w h = scoreSpec hm x y w h :=
  calcScore_sum hm x y w h

/-! ### Claim C9: scoring with no heat map -/

theorem cellAt_zeroHeatMap (W H : ℕ) (i j : ℤ) : cellAt (zeroHeatMap W H) i j = 0 := by
  unfold cellAt zeroHeatMap
  simp [List.getD_eq_getElem?_getD, List.getElem?_replicate]
  split <;> simp

theorem calcScore_zeroHeatMap (W H : ℕ) (x y w h : ℚ) :
    calcScore (zeroHeatMap W H) x y w h = 0 := by
  rw [calcScore_sum]
  unfold scoreSpec
  apply Finset.sum_eq_zero
  intro i _
  apply Finset.sum_eq_zero
  intro j _
  unfold boundedCellAt
  split
  · exact cellAt_zeroHeatMap W H i j
  · rfl

/-- Claim C9: when no heat map exists, `calculateRectangleScore` returns
0 for every rectangle rather than failing — the same value a genuinely
fully-shaded (all-zero) heat map of any dimensions yields for every
rectangle. -/
theorem calculateRectangleScore_none (W H : ℕ) (x y w h : ℚ) :
    calculateRectangleScore none x y w h = 0 ∧
      calculateRectangleScore (some (zeroHeatMap W H)) x y w h = 0 := by
  constructor
  · rfl
  · exact calcScore_zeroHeatMap W H x y w h

/-! ### Claim C8: chunked aggregation equals the synchronous single pass -/

/-- Claim C8: partitioning the column loop of `generateHeatMap` into any
sequence of chunks (as the asynchronous variant does, yielding after
every 20th column) produces a grid identical cell-for-cell to the
synchronous single pass: chunk boundaries never affect the result. -/
theorem generateHeatMapChunked_eq (imgs : List PImage) (total : ℕ) (t : ℚ) (W H : ℕ)
    (chunks : List (List ℕ)) (hflat : chunks.flatten = List.range W) :
    generateHeatMapChunked imgs total t W H chunks = generateHeatMap imgs total t W H := by
  unfold generateHeatMapChunked generateHeatMap
  rw [← hflat, List.foldl_flatten]

/-- Witness for C8: a concrete uneven chunking of a 3-column canvas
(mirroring a yield boundary after the first column) agrees with the
synchronous pass on concrete buffers. -/
theorem generateHeatMapChunked_eq_witness :
    (([[0], [1, 2]] : List (List ℕ)).flatten = List.range 3) ∧
      generateHeatMapChunked imgs6 6 200 3 1 [[0], [1, 2]] =
        generateHeatMap imgs6 6 200 3 1 :=
  ⟨rfl, generateHeatMapChunked_eq imgs6 6 200 3 1 [[0], [1, 2]] rfl⟩

/-! ### Claim C7: raising the threshold never increases a cell -/

theorem roundTiesEven_ge_floor (q : ℚ) : ⌊q⌋ ≤ roundTiesEven q := by
  unfold roundTiesEven
  split_ifs <;> omega

theorem roundTiesEven_le_floor_add_one (q : ℚ) : roundTiesEven q ≤ ⌊q⌋ + 1 := by
  unfold roundTiesEven
  split_ifs <;> omega

theorem roundTiesEven_mono {q1 q2 : ℚ} (h : q1 ≤ q2) :
    roundTiesEven q1 ≤ roundTiesEven q2 := by
  rcases lt_or_eq_of_le (Int.floor_le_floor h) with hlt | heq
  · have h1 := roundTiesEven_le_floor_add_one q1
    have h2 := roundTiesEven_ge_floor q2
    omega
  · by_cases ha1 : (⌊q1⌋ : ℚ) + 1 / 2 < q1
    · have ha2 : (⌊q2⌋ : ℚ) + 1 / 2 < q2 := by
        rw [← heq]
        calc (⌊q1⌋ : ℚ) + 1 / 2 < q1 := ha1
        _ ≤ q2 := h
      unfold roundTiesEven
      rw [if_pos ha1, if_pos ha2, heq]
    · by_cases hb1 : q1 < (⌊q1⌋ : ℚ) + 1 / 2
      · have h2 := roundTiesEven_ge_floor q2
        have h1 : roundTiesEven q1 = ⌊q1⌋ := by
          unfold roundTiesEven
          rw [if_neg ha1, if_pos hb1]
        omega
      · by_cases ha2 : (⌊q2⌋ : ℚ) + 1 / 2 < q2
        · have h1 := roundTiesEven_le_floor_add_one q1
          have h2 : roundTiesEven q2 = ⌊q2⌋ + 1 := by
            unfold roundTiesEven
            rw [if_pos ha2]
          omega
        · have hq : q1 = q2 := by
            push_neg at ha1 hb1 ha2
            have hq1 : q1 = (⌊q1⌋ : ℚ) + 1 / 2 := le_antisymm ha1 hb1
            have hq2 : q2 ≤ (⌊q1⌋ : ℚ) + 1 / 2 := by
              rw [heq]
              exact ha2
            linarith
          rw [hq]

theorem toU8Clamp_mono {q1 q2 : ℚ} (h : q1 ≤ q2) : toU8Clamp q1 ≤ toU8Clamp q2 := by
  by_cases h1 : q1 ≤ 0
  · have e1 : toU8Clamp q1 = 0 := by unfold toU8Clamp; rw [if_pos h1]
    rw [e1]
    exact Nat.zero_le _
  · by_cases h2 : 255 ≤ q1
    · have e1 : toU8Clamp q1 = 255 := by unfold toU8Clamp; rw [if_neg h1, if_pos h2]
      have e2 : toU8Clamp q2 = 255 := by
        unfold toU8Clamp
        rw [if_neg (by linarith), if_pos (by linarith)]
      rw [e1, e2]
    · have e1 : toU8Clamp q1 = (roundTiesEven q1).toNat := by
        unfold toU8Clamp
        rw [if_neg h1, if_neg h2]
      rw [e1]
      by_cases h3 : q2 ≤ 0
      · linarith
      · by_cases h4 : 255 ≤ q2
        · have e2 : toU8Clamp q2 = 255 := by unfold toU8Clamp; rw [if_neg h3, if_pos h4]
          rw [e2]
          have hle := roundTiesEven_le_floor_add_one q1
          have hfl : ⌊q1⌋ < 255 := Int.floor_lt.mpr (by push_neg at h2; exact_mod_cast h2)
          omega
        · have e2 : toU8Clamp q2 = (roundTiesEven q2).toNat := by
            unfold toU8Clamp
            rw [if_neg h3, if_neg h4]
          rw [e2]
          exact Int.toNat_le_toNat (roundTiesEven_mono h)

theorem mapRange_count_mono (total : ℕ) {v1 v2 : ℚ} (hv : v2 ≤ v1) (_h1 : 0 ≤ v2) :
    mapRange v2 0 total 0 255 ≤ mapRange v1 0 total 0 255 := by
  unfold mapRange
  rcases Nat.eq_zero_or_pos total with h0 | hpos
  · subst h0
    simp
  · have hT : (0 : ℚ) < total := by exact_mod_cast hpos
    have hdiv : (v2 - 0) / ((total : ℚ) - 0) ≤ (v1 - 0) / ((total : ℚ) - 0) := by
      gcongr
      linarith
    linarith

theorem isSunny_mono (img : PImage) {t1 t2 : ℚ} (h12 : t1 ≤ t2) (x y : ℕ) :
    isSunny img t2 x y = true → isSunny img t1 x y = true := by
  unfold isSunny
  dsimp only
  cases h1 : img.pixels[(x + y * img.width) * 4]? <;>
    cases h2 : img.pixels[(x + y * img.width) * 4 + 1]? <;>
    cases h3 : img.pixels[(x + y * img.width) * 4 + 2]? <;>
    simp only [h1, h2, h3, decide_eq_true_eq]
  all_goals intro hlt
  all_goals first
  | exact hlt
  | linarith

/-- Claim C7: holding the buffers fixed, raising the threshold never
increases any cell's sunny count, and hence never increases any cell's
stored grayscale value. -/
theorem threshold_monotone (imgs : List PImage) (total : ℕ) (t1 t2 : ℚ)
    (h12 : t1 ≤ t2) (x y : ℕ) :
    sunnyCount imgs t2 x y ≤ sunnyCount imgs t1 x y ∧
      heatValue imgs total t2 x y ≤ heatValue imgs total t1 x y := by
  have hcount : sunnyCount imgs t2 x y ≤ sunnyCount imgs t1 x y :=
    List.countP_mono_left (fun img _ hs => isSunny_mono img h12 x y hs)
  refine ⟨hcount, ?_⟩
  unfold heatValue
  apply toU8Clamp_mono
  apply mapRange_count_mono
  · exact_mod_cast hcount
  · positivity

/-- Witness for C7: on the concrete six-buffer collection, raising the
threshold from 100 to 250 does not increase the cell count or value. -/
theorem threshold_monotone_witness :
    ((100 : ℚ) ≤ 250) ∧
      (sunnyCount imgs6 250 0 0 ≤ sunnyCount imgs6 100 0 0 ∧
        heatValue imgs6 6 250 0 0 ≤ heatValue imgs6 6 100 0 0) :=
  ⟨by norm_num, threshold_monotone imgs6 6 100 250 (by norm_num) 0 0⟩

/-! ### Reading back the heat map built by in-place writes -/

theorem length_writePixel (imgs : List PImage) (total : ℕ) (t : ℚ) (W : ℕ)
    (st : List ℕ) (x y : ℕ) : (writePixel imgs total t W st x y).length = st.length := by
  simp [writePixel]

theorem length_writeColumn (imgs : List PImage) (total : ℕ) (t : ℚ) (W H : ℕ)
    (st : List ℕ) (x : ℕ) : (writeColumn imgs total t W H st x).length = st.length := by
  unfold writeColumn
  generalize List.range H = ys
  induction ys generalizing st with
  | nil => rfl
  | cons y0 ys ih =>
    rw [List.foldl_cons, ih, length_writePixel]

theorem pixIndex_lt (W H x y c : ℕ) (hx : x < W) (hy : y < H) (hc : c < 4) :
    (x + y * W) * 4 + c < W * H * 4 := by
  have h3 : x + y * W < W + y * W := Nat.add_lt_add_right hx _
  have h4 : W + y * W = (y + 1) * W := by ring
  have h2 : (y + 1) * W ≤ H * W := Nat.mul_le_mul_right W (Nat.succ_le_of_lt hy)
  have h5 : x + y * W < H * W := by
    rw [h4] at h3
    exact lt_of_lt_of_le h3 h2
  rw [Nat.mul_comm H W] at h5
  revert h5 hc
  generalize x + y * W = A
  generalize W * H = B
  intro h5 hc
  omega

theorem pixIndex_inj (W : ℕ) (x x' y y' c c' : ℕ) (hx : x < W) (hx' : x' < W)
    (hc : c < 4) (hc' : c' < 4)
    (he : (x + y * W) * 4 + c = (x' + y' * W) * 4 + c') :
    x = x' ∧ y = y' ∧ c = c' := by
  have hA : x + y * W = x' + y' * W ∧ c = c' := by
    revert he hc hc'
    generalize x + y * W = A
    generalize x' + y' * W = B
    intro hc hc' he
    omega
  obtain ⟨hAB, hcc⟩ := hA
  have hW : 0 < W := lt_of_le_of_lt (Nat.zero_le x) hx
  have hx1 : (x + y * W) % W = x := by
    rw [Nat.add_mul_mod_self_right, Nat.mod_eq_of_lt hx]
  have hx2 : (x' + y' * W) % W = x' := by
    rw [Nat.add_mul_mod_self_right, Nat.mod_eq_of_lt hx']
  have hxx : x = x' := by rw [← hx1, ← hx2, hAB]
  refine ⟨hxx, ?_, hcc⟩
  subst hxx
  have hyy : y * W = y' * W := by omega
  exact Nat.eq_of_mul_eq_mul_right hW hyy

theorem getElem?_set4 (st : List ℕ) (A i : ℕ) (v0 v1 v2 v3 : ℕ) (hA : A + 3 < st.length) :
    ((((st.set A v0).set (A + 1) v1).set (A + 2) v2).set (A + 3) v3)[i]? =
      if i = A then some v0
      else if i = A + 1 then some v1
      else if i = A + 2 then some v2
      else if i = A + 3 then some v3
      else st[i]? := by
  simp only [List.getElem?_set, List.length_set]
  by_cases h3 : A + 3 = i
  · rw [if_pos h3, if_pos (by omega), if_neg (by omega), if_neg (by omega),
      if_neg (by omega), if_pos (by omega)]
  · rw [if_neg h3]
    by_cases h2 : A + 2 = i
    · rw [if_pos h2, if_pos (by omega), if_neg (by omega), if_neg (by omega),
        if_pos (by omega)]
    · rw [if_neg h2]
      by_cases h1 : A + 1 = i
      · rw [if_pos h1, if_pos (by omega), if_neg (by omega), if_pos (by omega)]
      · rw [if_neg h1]
        by_cases h0 : A = i
        · rw [if_pos h0, if_pos (by omega), if_pos (by omega)]
        · rw [if_neg h0, if_neg (by omega), if_neg (by omega), if_neg (by omega),
            if_neg (by omega)]

theorem getElem?_writePixel (imgs : List PImage) (total : ℕ) (t : ℚ) (W H : ℕ)
    (st : List ℕ) (x' y' x y c : ℕ) (hx : x < W) (_hy : y < H) (hx' : x' < W) (hy' : y' < H)
    (hc : c < 4) (hlen : st.length = W * H * 4) :
    (writePixel imgs total t W st x' y')[(x + y * W) * 4 + c]? =
      if x = x' ∧ y = y' then
        some (if c = 3 then 255 else heatValue imgs total t x y)
      else st[(x + y * W) * 4 + c]? := by
  unfold writePixel
  have hA : (x' + y' * W) * 4 + 3 < st.length := by
    rw [hlen]
    exact pixIndex_lt W H x' y' 3 hx' hy' (by omega)
  rw [getElem?_set4 st ((x' + y' * W) * 4) ((x + y * W) * 4 + c) _ _ _ _ hA]
  by_cases hxy : x = x' ∧ y = y'
  · obtain ⟨hxx, hyy⟩ := hxy
    subst hxx
    subst hyy
    rw [if_pos (show x = x ∧ y = y from ⟨rfl, rfl⟩)]
    generalize (x + y * W) * 4 = A
    interval_cases c
    · rw [if_pos (by omega)]
      simp
    · rw [if_neg (by omega), if_pos (by omega)]
      simp
    · rw [if_neg (by omega), if_neg (by omega), if_pos (by omega)]
      simp
    · rw [if_neg (by omega), if_neg (by omega), if_neg (by omega), if_pos (by omega)]
      simp
  · have hne : ∀ k, k < 4 → ¬((x + y * W) * 4 + c = (x' + y' * W) * 4 + k) := by
      intro k hk he
      obtain ⟨h5, h6, _⟩ := pixIndex_inj W x x' y y' c k hx hx' hc hk he
      exact hxy ⟨h5, h6⟩
    rw [if_neg hxy,
      if_neg (fun he => hne 0 (by omega) (by rw [Nat.add_zero]; exact he)),
      if_neg (hne 1 (by omega)), if_neg (hne 2 (by omega)), if_neg (hne 3 (by omega))]

theorem getElem?_foldRows (imgs : List PImage) (total : ℕ) (t : ℚ) (W H : ℕ)
    (x' x y c : ℕ) (hx : x < W) (hx' : x' < W) (hy : y < H) (hc : c < 4) :
    ∀ (ys : List ℕ) (st : List ℕ), (∀ y2 ∈ ys, y2 < H) → st.length = W * H * 4 →
      (ys.foldl (fun s y2 => writePixel imgs total t W s x' y2) st)[(x + y * W) * 4 + c]? =
        if x = x' ∧ y ∈ ys then
          some (if c = 3 then 255 else heatValue imgs total t x y)
        else st[(x + y * W) * 4 + c]? := by
  intro ys
  induction ys with
  | nil =>
    intro st _ _
    rw [List.foldl_nil, if_neg (by simp)]
  | cons y0 ys ih =>
    intro st hmem hlen
    rw [List.foldl_cons]
    rw [ih (writePixel imgs total t W st x' y0)
      (fun y2 h2 => hmem y2 (List.mem_cons_of_mem y0 h2))
      (by rw [length_writePixel, hlen])]
    by_cases hin : x = x' ∧ y ∈ ys
    · rw [if_pos hin,
        if_pos (show x = x' ∧ y ∈ y0 :: ys from ⟨hin.1, List.mem_cons_of_mem y0 hin.2⟩)]
    · rw [if_neg hin]
      rw [getElem?_writePixel imgs total t W H st x' y0 x y c hx hy hx'
        (hmem y0 (List.mem_cons_self y0 ys)) hc hlen]
      by_cases h0 : x = x' ∧ y = y0
      · rw [if_pos h0,
          if_pos (show x = x' ∧ y ∈ y0 :: ys from
            ⟨h0.1, by rw [h0.2]; exact List.mem_cons_self y0 ys⟩)]
      · rw [if_neg h0, if_neg ?_]
        intro hcon
        rcases List.mem_cons.mp hcon.2 with h2 | h2
        · exact h0 ⟨hcon.1, h2⟩
        · exact hin ⟨hcon.1, h2⟩

theorem getElem?_writeColumn (imgs : List PImage) (total : ℕ) (t : ℚ) (W H : ℕ)
    (st : List ℕ) (x' x y c : ℕ) (hx : x < W) (hx' : x' < W) (hy : y < H) (hc : c < 4)
    (hlen : st.length = W * H * 4) :
    (writeColumn imgs total t W H st x')[(x + y * W) * 4 + c]? =
      if x = x' then some (if c = 3 then 255 else heatValue imgs total t x y)
      else st[(x + y * W) * 4 + c]? := by
  unfold writeColumn
  rw [getElem?_foldRows imgs total t W H x' x y c hx hx' hy hc (List.range H) st
    (fun y2 h2 => List.mem_range.mp h2) hlen]
  by_cases hxx : x = x'
  · rw [if_pos (show x = x' ∧ y ∈ List.range H from ⟨hxx, List.mem_range.mpr hy⟩),
      if_pos hxx]
  · rw [if_neg (fun hcon => hxx hcon.1), if_neg hxx]

theorem getElem?_foldCols (imgs : List PImage) (total : ℕ) (t : ℚ) (W H : ℕ)
    (x y c : ℕ) (hx : x < W) (hy : y < H) (hc : c < 4) :
    ∀ (xs : List ℕ) (st : List ℕ), (∀ x2 ∈ xs, x2 < W) → st.length = W * H * 4 →
      (xs.foldl (writeColumn imgs total t W H) st)[(x + y * W) * 4 + c]? =
        if x ∈ xs then some (if c = 3 then 255 else heatValue imgs total t x y)
        else st[(x + y * W) * 4 + c]? := by
  intro xs
  induction xs with
  | nil =>
    intro st _ _
    rw [List.foldl_nil, if_neg (by simp)]
  | cons x0 xs ih =>
    intro st hmem hlen
    rw [List.foldl_cons]
    rw [ih (writeColumn imgs total t W H st x0)
      (fun x2 h2 => hmem x2 (List.mem_cons_of_mem x0 h2))
      (by rw [length_writeColumn, hlen])]
    by_cases hin : x ∈ xs
    · rw [if_pos hin, if_pos (List.mem_cons_of_mem x0 hin)]
    · rw [if_neg hin]
      rw [getElem?_writeColumn imgs total t W H st x0 x y c hx
        (hmem x0 (List.mem_cons_self x0 xs)) hy hc hlen]
      by_cases h0 : x = x0
      · rw [if_pos h0,
          if_pos (show x ∈ x0 :: xs by rw [h0]; exact List.mem_cons_self x0 xs)]
      · rw [if_neg h0, if_neg ?_]
        intro hcon
        rcases List.mem_cons.mp hcon with h2 | h2
        · exact h0 h2
        · exact hin h2

/-- What the built heat map holds at pixel `(x, y)`, channel `c`: the
grayscale `heatValue` on R, G, B and 255 on alpha. -/
theorem getElem?_generateHeatMap (imgs : List PImage) (total : ℕ) (t : ℚ) (W H : ℕ)
    (x y c : ℕ) (hx : x < W) (hy : y < H) (hc : c < 4) :
    (generateHeatMap imgs total t W H)[(x + y * W) * 4 + c]? =
      some (if c = 3 then 255 else heatValue imgs total t x y) := by
  unfold generateHeatMap
  rw [getElem?_foldCols imgs total t W H x y c hx hy hc (List.range W)
    (List.replicate (W * H * 4) 0) (fun x2 h2 => List.mem_range.mp h2)
    (List.length_replicate _ _)]
  rw [if_pos (List.mem_range.mpr hx)]

/-! ### Claim C1: the aggregated cell value -/

theorem isSunny_eq_spec (img : PImage) (t : ℚ) (x y W H : ℕ)
    (hx : x < W) (hy : y < H) (hw : img.width = W)
    (hlen : img.pixels.length = W * H * 4) :
    isSunny img t x y = decide (t < brightnessAt img x y) := by
  unfold isSunny brightnessAt
  dsimp only
  have hbase : (x + y * img.width) * 4 + 2 < img.pixels.length := by
    rw [hlen, hw]
    exact pixIndex_lt W H x y 2 hx hy (by omega)
  have h0 : (x + y * img.width) * 4 < img.pixels.length := by omega
  have h1 : (x + y * img.width) * 4 + 1 < img.pixels.length := by omega
  rw [List.getElem?_eq_getElem h0, List.getElem?_eq_getElem h1,
    List.getElem?_eq_getElem hbase]
  simp only [List.getD_eq_getElem?_getD, List.getElem?_eq_getElem h0,
    List.getElem?_eq_getElem h1, List.getElem?_eq_getElem hbase, Option.getD_some]

theorem sunnyCount_eq_spec (imgs : List PImage) (t : ℚ) (x y W H : ℕ)
    (hx : x < W) (hy : y < H)
    (hwf : ∀ img ∈ imgs, img.width = W ∧ img.height = H ∧ img.pixels.length = W * H * 4) :
    sunnyCount imgs t x y = sunnyCountSpec imgs t x y := by
  unfold sunnyCount sunnyCountSpec
  apply List.countP_congr
  intro img hmem
  obtain ⟨hw, _, hlen⟩ := hwf img hmem
  rw [isSunny_eq_spec img t x y W H hx hy hw hlen]

theorem toU8Clamp_eq_roundTiesEven {q : ℚ} (h0 : 0 ≤ q) (h255 : q ≤ 255) :
    toU8Clamp q = (roundTiesEven q).toNat := by
  by_cases hq0 : q ≤ 0
  · have hq : q = 0 := le_antisymm hq0 h0
    rw [hq]
    norm_num [toU8Clamp, roundTiesEven]
  · by_cases hq255 : 255 ≤ q
    · have hq : q = 255 := le_antisymm h255 hq255
      rw [hq]
      norm_num [toU8Clamp, roundTiesEven]
      rfl
    · unfold toU8Clamp
      rw [if_neg hq0, if_neg hq255]

theorem heatValue_formula (imgs : List PImage) (total : ℕ) (t : ℚ) (x y : ℕ)
    (htot : sunnyCount imgs t x y ≤ total) (hpos : 0 < total) :
    heatValue imgs total t x y =
      (roundTiesEven ((sunnyCount imgs t x y : ℚ) / total * 255)).toNat := by
  unfold heatValue mapRange
  have hq : (0 : ℚ) + (255 - 0) * (((sunnyCount imgs t x y : ℚ) - 0) / ((total : ℚ) - 0)) =
      (sunnyCount imgs t x y : ℚ) / total * 255 := by ring
  rw [hq]
  apply toU8Clamp_eq_roundTiesEven
  · positivity
  · have hT : (0 : ℚ) < total := by exact_mod_cast hpos
    have hcle : (sunnyCount imgs t x y : ℚ) ≤ total := by exact_mod_cast htot
    have hdiv : (sunnyCount imgs t x y : ℚ) / total ≤ 1 := by
      rw [div_le_one hT]
      exact hcle
    nlinarith

/-- Claim C1 (amended): for a collection of `N ≥ 1` equally-sized `W×H`
buffers and any threshold, the aggregated cell at `(x, y)` equals
`count / N * 255` rounded to the nearest integer with ties to even (the
`Uint8ClampedArray` store), where `count` is the number of buffers whose
pixel at `(x, y)` has luma `0.299*R + 0.587*G + 0.114*B` strictly above
the threshold. -/
theorem generateHeatMap_cell (imgs : List PImage) (t : ℚ) (W H x y : ℕ)
    (hwf : ∀ img ∈ imgs, img.width = W ∧ img.height = H ∧ img.pixels.length = W * H * 4)
    (hN : 1 ≤ imgs.length) (hx : x < W) (hy : y < H) :
    (generateHeatMap imgs imgs.length t W H)[(x + y * W) * 4]? =
      some ((roundTiesEven ((sunnyCountSpec imgs t x y : ℚ) / imgs.length * 255)).toNat) := by
  have hr := getElem?_generateHeatMap imgs imgs.length t W H x y 0 hx hy (by omega)
  rw [Nat.add_zero] at hr
  rw [hr]
  have h03 : (if (0 : ℕ) = 3 then (255 : ℕ) else heatValue imgs imgs.length t x y) =
      heatValue imgs imgs.length t x y := by norm_num
  rw [h03, heatValue_formula imgs imgs.length t x y
      (by unfold sunnyCount; exact List.countP_le_length _) hN,
    sunnyCount_eq_spec imgs t x y W H hx hy hwf]

/-- Witness for the amended C1 on the concrete six-buffer collection. -/
theorem generateHeatMap_cell_witness :
    (∀ img ∈ imgs6, img.width = 1 ∧ img.height = 1 ∧ img.pixels.length = 1 * 1 * 4) ∧
      1 ≤ imgs6.length ∧
      (generateHeatMap imgs6 imgs6.length 200 1 1)[(0 + 0 * 1) * 4]? =
        some ((roundTiesEven ((sunnyCountSpec imgs6 200 0 0 : ℚ) / imgs6.length * 255)).toNat) :=
  ⟨by decide, by decide,
    generateHeatMap_cell imgs6 200 1 1 0 0 (by decide) (by decide) (by decide) (by decide)⟩

theorem isSunny_whiteImg : isSunny whiteImg 200 0 0 = true := by
  unfold isSunny whiteImg
  norm_num

theorem isSunny_blackImg : isSunny blackImg 200 0 0 = false := by
  unfold isSunny blackImg
  norm_num

theorem sunnyCount_imgs6 : sunnyCount imgs6 200 0 0 = 1 := by
  unfold sunnyCount imgs6
  simp [List.countP_cons, isSunny_whiteImg, isSunny_blackImg]

theorem sunnyCountSpec_imgs6 : sunnyCountSpec imgs6 200 0 0 = 1 := by
  unfold sunnyCountSpec imgs6 brightnessAt whiteImg blackImg
  norm_num [List.countP_cons]

/-- Claim C1 counterexample: with six equally-sized buffers of which
exactly one is sunny at the pixel, the stored cell value is 42 (the tie
`42.5` rounds to even), whereas `round(count / N * 255)` is 43 — the
claim's formula does not match the code's output. -/
theorem generateHeatMap_round_counterexample :
    (generateHeatMap imgs6 imgs6.length 200 1 1)[0]? = some 42 ∧
      (round ((sunnyCountSpec imgs6 200 0 0 : ℚ) / imgs6.length * 255)).toNat = 43 ∧
      ¬ ((generateHeatMap imgs6 imgs6.length 200 1 1)[0]? =
        some ((round ((sunnyCountSpec imgs6 200 0 0 : ℚ) / imgs6.length * 255)).toNat)) := by
  have hr := getElem?_generateHeatMap imgs6 imgs6.length 200 1 1 0 0 0
    (by decide) (by decide) (by decide)
  norm_num at hr
  have hv : heatValue imgs6 imgs6.length 200 0 0 = 42 := by
    unfold heatValue mapRange
    rw [show imgs6.length = 6 from rfl, sunnyCount_imgs6]
    have he : Even (42 : ℤ) := ⟨21, by norm_num⟩
    norm_num [toU8Clamp, roundTiesEven, he]
    rfl
  have hround : (round ((sunnyCountSpec imgs6 200 0 0 : ℚ) / imgs6.length * 255)).toNat = 43 := by
    rw [sunnyCountSpec_imgs6, show imgs6.length = 6 from rfl]
    norm_num [round_eq]
    rfl
  refine ⟨?_, hround, ?_⟩
  · rw [hr, hv]
  · rw [hr, hv, hround]
    simp

/-! ### Claim C6: the 5×5 single-bright-cell scenario -/

theorem calcScore_hm5_start : calcScore hm5 0 0 1 1 = 0 := by
  norm_num [calcScore, intRange, cellAt, hm5, List.getD_eq_getElem?_getD,
    List.getElem?_map, List.getElem?_range, List.range_succ, List.range_zero,
    List.map_cons, List.map_nil, List.foldl_cons, List.foldl_nil]

theorem calcScore_hm5_se : calcScore hm5 1 1 1 1 = 0 := by
  norm_num [calcScore, intRange, cellAt, hm5, List.getD_eq_getElem?_getD,
    List.getElem?_map, List.getElem?_range, List.range_succ, List.range_zero,
    List.map_cons, List.map_nil, List.foldl_cons, List.foldl_nil]

theorem bestCand_hm5 : bestCand hm5 (mkMovingRect hm5 0 0 1 1) = (0, 0, 0) := by
  norm_num [bestCand, candList, directions, inBoundsRect, mkMovingRect, updBest,
    List.filter_cons, List.filter_nil, List.map_cons, List.map_nil,
    List.foldl_cons, List.foldl_nil, calcScore_hm5_start, calcScore_hm5_se,
    show hm5.width = 5 from rfl, show hm5.height = 5 from rfl]

theorem hillStep_hm5 : hillStep hm5 (mkMovingRect hm5 0 0 1 1) =
    { mkMovingRect hm5 0 0 1 1 with searching := false } := by
  rw [hillStep_eq hm5 (mkMovingRect hm5 0 0 1 1) rfl, bestCand_hm5]
  have hs : (mkMovingRect hm5 0 0 1 1).score = 0 := calcScore_hm5_start
  rw [if_neg (by rw [hs]; omega)]

theorem runClimb_hm5_eq : runClimb hm5 (hm5.width * hm5.height) (mkMovingRect hm5 0 0 1 1) =
    { mkMovingRect hm5 0 0 1 1 with searching := false } := by
  have h25 : hm5.width * hm5.height = 24 + 1 := rfl
  rw [h25]
  show runClimb hm5 24 (hillStep hm5 (mkMovingRect hm5 0 0 1 1)) = _
  rw [hillStep_hm5]
  exact runClimb_not_searching hm5 24 _ rfl

/-- Claim C6 counterexample: on the 5×5 grid whose single cell `(2, 2)`
holds 255, the hill climb of a 1×1 rectangle started at `(0, 0)` does not
reach `(2, 2)` with score 255 — it never leaves `(0, 0)`. -/
theorem hillClimb_hm5_counterexample :
    ¬ ((runClimb hm5 (hm5.width * hm5.height) (mkMovingRect hm5 0 0 1 1)).x = 2 ∧
      (runClimb hm5 (hm5.width * hm5.height) (mkMovingRect hm5 0 0 1 1)).y = 2 ∧
      (runClimb hm5 (hm5.width * hm5.height) (mkMovingRect hm5 0 0 1 1)).score = 255) := by
  rw [runClimb_hm5_eq]
  rintro ⟨hx, _, _⟩
  have : (0 : ℚ) = 2 := hx
  norm_num at this

/-- Claim C6 (amended): the 1×1 rectangle started at `(0, 0)` has initial
score 0, and the hill climb freezes immediately (after the very first
step) at `(0, 0)` with final score 0: the lone bright cell is beyond the
zero plateau, and no in-bounds neighbour strictly improves the score. -/
theorem hillClimb_hm5_amended :
    calcScore hm5 0 0 1 1 = 0 ∧
      (runClimb hm5 1 (mkMovingRect hm5 0 0 1 1)).searching = false ∧
      (runClimb hm5 (hm5.width * hm5.height) (mkMovingRect hm5 0 0 1 1)).searching = false ∧
      (runClimb hm5 (hm5.width * hm5.height) (mkMovingRect hm5 0 0 1 1)).x = 0 ∧
      (runClimb hm5 (hm5.width * hm5.height) (mkMovingRect hm5 0 0 1 1)).y = 0 ∧
      (runClimb hm5 (hm5.width * hm5.height) (mkMovingRect hm5 0 0 1 1)).score = 0 := by
  refine ⟨calcScore_hm5_start, ?_, ?_, ?_, ?_, ?_⟩
  · show (hillStep hm5 (mkMovingRect hm5 0 0 1 1)).searching = false
    rw [hillStep_hm5]
  · rw [runClimb_hm5_eq]
  · rw [runClimb_hm5_eq]
    rfl
  · rw [runClimb_hm5_eq]
    rfl
  · rw [runClimb_hm5_eq]
    exact calcScore_hm5_start

/-! ### Claim C4: no dimension check, no error -/

/-- Claim C4 (amended): `generateHeatMap` performs no dimension
validation and raises nothing — every call returns a grid; a buffer
smaller than the canvas silently contributes "not sunny" wherever its
pixel read falls out of range. -/
theorem generateHeatMapRun_total :
    (∀ (imgs : List PImage) (total : ℕ) (t : ℚ) (W H : ℕ),
      ∃ g, generateHeatMapRun imgs total t W H = Except.ok g) ∧
    (∀ (img : PImage) (t : ℚ) (x y : ℕ),
      img.pixels.length ≤ (x + y * img.width) * 4 → isSunny img t x y = false) := by
  constructor
  · intro imgs total t W H
    exact ⟨generateHeatMap imgs total t W H, rfl⟩
  · intro img t x y hlen
    unfold isSunny
    dsimp only
    rw [List.getElem?_eq_none hlen]

/-- Witness for the amended C4: reading past a 1×1 buffer at `(1, 0)`
counts as not sunny. -/
theorem generateHeatMapRun_total_witness :
    blackImg.pixels.length ≤ (1 + 0 * blackImg.width) * 4 ∧
      isSunny blackImg 200 1 0 = false :=
  ⟨by decide, generateHeatMapRun_total.2 blackImg 200 1 0 (by decide)⟩

theorem isSunny_wideImg : isSunny wideImg 200 0 0 = true := by
  unfold isSunny wideImg
  norm_num

/-- Claim C4 counterexample: aggregating two buffers of different
dimensions (1×1 and 2×1) raises no `DimensionMismatchError`; the call
returns a grid (here the all-bright single pixel `[255, 255, 255, 255]`)
produced by reading each buffer with its own stride. -/
theorem dimensionMismatch_counterexample :
    whiteImg.width ≠ wideImg.width ∧
      generateHeatMapRun [whiteImg, wideImg] 2 200 1 1 =
        Except.ok [255, 255, 255, 255] := by
  constructor
  · decide
  · have hcnt : sunnyCount [whiteImg, wideImg] 200 0 0 = 2 := by
      unfold sunnyCount
      simp [List.countP_cons, isSunny_whiteImg, isSunny_wideImg]
    have hv : heatValue [whiteImg, wideImg] 2 200 0 0 = 255 := by
      unfold heatValue mapRange
      rw [hcnt]
      norm_num [toU8Clamp]
    unfold generateHeatMapRun
    congr 1
    unfold generateHeatMap writeColumn writePixel
    norm_num [List.range_succ, List.range_zero, List.foldl_cons, List.foldl_nil, hv]
    decide

/-! ### Claim C2: the hill climb terminates at a local maximum -/

theorem mem_offsetBox (hm : HeatMap) (x0 y0 w h : ℚ) (a b : ℤ) :
    (a, b) ∈ offsetBox hm x0 y0 w h ↔
      inBoundsRect hm (x0 + a) (y0 + b) w h = true := by
  unfold offsetBox inBoundsRect
  simp only [Finset.mem_product, Finset.mem_Ico, Bool.and_eq_true, decide_eq_true_eq]
  constructor
  · rintro ⟨⟨h1, h2⟩, h3, h4⟩
    have h1' : w / 2 - x0 ≤ (a : ℚ) := Int.ceil_le.mp h1
    have h2' : (a : ℚ) < (hm.width : ℚ) - w / 2 - x0 := Int.lt_ceil.mp h2
    have h3' : h / 2 - y0 ≤ (b : ℚ) := Int.ceil_le.mp h3
    have h4' : (b : ℚ) < (hm.height : ℚ) - h / 2 - y0 := Int.lt_ceil.mp h4
    refine ⟨⟨⟨by linarith, by linarith⟩, by linarith⟩, by linarith⟩
  · rintro ⟨⟨⟨h1, h2⟩, h3⟩, h4⟩
    refine ⟨⟨Int.ceil_le.mpr (by linarith), Int.lt_ceil.mpr (by linarith)⟩,
      Int.ceil_le.mpr (by linarith), Int.lt_ceil.mpr (by linarith)⟩

theorem offsetBox_card_le (hm : HeatMap) (x0 y0 w h : ℚ) (hw : 0 ≤ w) (hh : 0 ≤ h) :
    (offsetBox hm x0 y0 w h).card ≤ hm.width * hm.height := by
  unfold offsetBox
  rw [Finset.card_product, Int.card_Ico, Int.card_Ico]
  have h1 : ⌈(hm.width : ℚ) - w / 2 - x0⌉ ≤ ⌈w / 2 - x0⌉ + (hm.width : ℤ) := by
    rw [← Int.ceil_add_int (w / 2 - x0) (hm.width : ℤ)]
    apply Int.ceil_le_ceil
    push_cast
    linarith
  have h2 : ⌈(hm.height : ℚ) - h / 2 - y0⌉ ≤ ⌈h / 2 - y0⌉ + (hm.height : ℤ) := by
    rw [← Int.ceil_add_int (h / 2 - y0) (hm.height : ℤ)]
    apply Int.ceil_le_ceil
    push_cast
    linarith
  apply Nat.mul_le_mul <;> omega

theorem climbInv_start (hm : HeatMap) (x y w h : ℚ)
    (hb : inBoundsRect hm x y w h = true) :
    climbInv hm x y w h (mkMovingRect hm x y w h) := by
  refine ⟨rfl, rfl, ⟨0, 0, by simp [mkMovingRect], by simp [mkMovingRect]⟩, hb, rfl⟩

theorem climbPotential_pos (hm : HeatMap) (x0 y0 w h : ℚ) (s : MovingRect)
    (hinv : climbInv hm x0 y0 w h s) :
    0 < climbPotential hm x0 y0 w h s.score := by
  obtain ⟨hw, hh, ⟨a, b, hx, hy⟩, hbnd, hsc⟩ := hinv
  unfold climbPotential
  apply Finset.card_pos.mpr
  refine ⟨(a, b), Finset.mem_filter.mpr ⟨?_, ?_⟩⟩
  · rw [mem_offsetBox, ← hx, ← hy]
    exact hbnd
  · rw [← hx, ← hy, ← hsc]

theorem climb_step (hm : HeatMap) (x0 y0 w h : ℚ) (s : MovingRect)
    (hinv : climbInv hm x0 y0 w h s) (hs : s.searching = true)
    (hs2 : (hillStep hm s).searching = true) :
    climbInv hm x0 y0 w h (hillStep hm s) ∧
      climbPotential hm x0 y0 w h (hillStep hm s).score <
        climbPotential hm x0 y0 w h s.score := by
  obtain ⟨hw, hh, ⟨a, b, hx, hy⟩, hbnd, hsc⟩ := hinv
  rcases hillStep_cases hm s hs with ⟨hfr, _⟩ | ⟨_, hlt, ⟨d, hd, hdx, hdy⟩, hb2, hsc2⟩
  · exfalso
    rw [hfr] at hs2
    simp at hs2
  · have hxnew : (hillStep hm s).x = x0 + ((a + d.1 : ℤ) : ℚ) := by
      rw [hdx, hx]
      push_cast
      ring
    have hynew : (hillStep hm s).y = y0 + ((b + d.2 : ℤ) : ℚ) := by
      rw [hdy, hy]
      push_cast
      ring
    have hb2' : inBoundsRect hm (hillStep hm s).x (hillStep hm s).y w h = true := by
      rw [← hw, ← hh]
      exact hb2
    have hsc2' : (hillStep hm s).score =
        calcScore hm (hillStep hm s).x (hillStep hm s).y w h := by
      rw [← hw, ← hh]
      exact hsc2
    refine ⟨⟨by rw [hillStep_w, hw], by rw [hillStep_h, hh],
      ⟨a + d.1, b + d.2, hxnew, hynew⟩, hb2', hsc2'⟩, ?_⟩
    unfold climbPotential
    apply Finset.card_lt_card
    rw [Finset.ssubset_iff_of_subset]
    · refine ⟨(a, b), Finset.mem_filter.mpr ⟨?_, ?_⟩, ?_⟩
      · rw [mem_offsetBox, ← hx, ← hy]
        exact hbnd
      · rw [← hx, ← hy, ← hsc]
      · intro hmem
        have := (Finset.mem_filter.mp hmem).2
        rw [← hx, ← hy, ← hsc] at this
        omega
    · intro ab hab
      obtain ⟨habbox, habsc⟩ := Finset.mem_filter.mp hab
      exact Finset.mem_filter.mpr ⟨habbox, by omega⟩

theorem climb_freezes (hm : HeatMap) (x0 y0 w h : ℚ) :
    ∀ (n : ℕ) (s : MovingRect), climbInv hm x0 y0 w h s →
      climbPotential hm x0 y0 w h s.score ≤ n →
      (runClimb hm n s).searching = false := by
  intro n
  induction n with
  | zero =>
    intro s hinv hpot
    have := climbPotential_pos hm x0 y0 w h s hinv
    omega
  | succ n ih =>
    intro s hinv hpot
    cases hs : s.searching
    · rw [runClimb_not_searching hm (n + 1) s hs]
      exact hs
    · show (runClimb hm n (hillStep hm s)).searching = false
      cases hs2 : (hillStep hm s).searching
      · rw [runClimb_not_searching hm n _ hs2]
        exact hs2
      · obtain ⟨hinv2, hdec⟩ := climb_step hm x0 y0 w h s hinv hs hs2
        exact ih (hillStep hm s) hinv2 (by omega)

theorem hillStep_frozenOptimal (hm : HeatMap) (s : MovingRect)
    (hJ : frozenOptimal hm s) : frozenOptimal hm (hillStep hm s) := by
  cases hs : s.searching
  · rw [hillStep_not_searching hm s hs]
    exact hJ
  · rcases hillStep_cases hm s hs with ⟨hfr, hopt⟩ | ⟨hsearch, _⟩
    · rw [hfr]
      intro _ d hd hb
      exact hopt d hd hb
    · intro hfalse
      rw [hsearch] at hfalse
      cases hfalse

theorem runClimb_frozenOptimal (hm : HeatMap) :
    ∀ (n : ℕ) (s : MovingRect), frozenOptimal hm s →
      frozenOptimal hm (runClimb hm n s) := by
  intro n
  induction n with
  | zero => intro s hJ; exact hJ
  | succ n ih =>
    intro s hJ
    exact ih (hillStep hm s) (hillStep_frozenOptimal hm s hJ)

theorem runClimb_w (hm : HeatMap) :
    ∀ (n : ℕ) (s : MovingRect), (runClimb hm n s).w = s.w := by
  intro n
  induction n with
  | zero => intro s; rfl
  | succ n ih =>
    intro s
    show (runClimb hm n (hillStep hm s)).w = s.w
    rw [ih (hillStep hm s), hillStep_w]

theorem runClimb_h (hm : HeatMap) :
    ∀ (n : ℕ) (s : MovingRect), (runClimb hm n s).h = s.h := by
  intro n
  induction n with
  | zero => intro s; rfl
  | succ n ih =>
    intro s
    show (runClimb hm n (hillStep hm s)).h = s.h
    rw [ih (hillStep hm s), hillStep_h]

/-- Claim C2: for every exposure grid and every in-bounds initial
rectangle, the hill climb is frozen after at most `width * height` steps
(the grid area), the returned placement's score is at least the initial
placement's score, and no in-bounds 8-neighbour of the final rectangle
scores strictly more. -/
theorem hillClimb_terminates (hm : HeatMap) (x y w h : ℚ)
    (hw : 0 ≤ w) (hh : 0 ≤ h) (hb : inBoundsRect hm x y w h = true) :
    (runClimb hm (hm.width * hm.height) (mkMovingRect hm x y w h)).searching = false ∧
      calcScore hm x y w h ≤
        (runClimb hm (hm.width * hm.height) (mkMovingRect hm x y w h)).score ∧
      ∀ d ∈ directions,
        inBoundsRect hm
            ((runClimb hm (hm.width * hm.height) (mkMovingRect hm x y w h)).x + d.1)
            ((runClimb hm (hm.width * hm.height) (mkMovingRect hm x y w h)).y + d.2)
            w h = true →
          calcScore hm
              ((runClimb hm (hm.width * hm.height) (mkMovingRect hm x y w h)).x + d.1)
              ((runClimb hm (hm.width * hm.height) (mkMovingRect hm x y w h)).y + d.2)
              w h ≤
            (runClimb hm (hm.width * hm.height) (mkMovingRect hm x y w h)).score := by
  have hinv0 := climbInv_start hm x y w h hb
  have hpot : climbPotential hm x y w h (mkMovingRect hm x y w h).score ≤
      hm.width * hm.height := by
    unfold climbPotential
    exact le_trans (Finset.card_filter_le _ _) (offsetBox_card_le hm x y w h hw hh)
  have hfrozen := climb_freezes hm x y w h (hm.width * hm.height)
    (mkMovingRect hm x y w h) hinv0 hpot
  have hJ0 : frozenOptimal hm (mkMovingRect hm x y w h) := by
    intro hfalse
    simp [mkMovingRect] at hfalse
  have hJ := runClimb_frozenOptimal hm (hm.width * hm.height)
    (mkMovingRect hm x y w h) hJ0
  refine ⟨hfrozen, ?_, ?_⟩
  · exact runClimb_score_le hm (hm.width * hm.height) (mkMovingRect hm x y w h)
  intro d hd hbnd
  have hw' := runClimb_w hm (hm.width * hm.height) (mkMovingRect hm x y w h)
  have hh' := runClimb_h hm (hm.width * hm.height) (mkMovingRect hm x y w h)
  have := hJ hfrozen d hd
  rw [hw', hh'] at this
  exact this hbnd

/-- Witness for C2: on the concrete 3×3 heat map, a 1×1 rectangle started
in bounds at `(1/2, 1/2)` satisfies all three conclusions after
`3 * 3` steps. -/
theorem hillClimb_terminates_witness :
    ((0 : ℚ) ≤ 1 ∧ inBoundsRect hm3 (1/2) (1/2) 1 1 = true) ∧
      ((runClimb hm3 (hm3.width * hm3.height) (mkMovingRect hm3 (1/2) (1/2) 1 1)).searching = false ∧
        calcScore hm3 (1/2) (1/2) 1 1 ≤
          (runClimb hm3 (hm3.width * hm3.height) (mkMovingRect hm3 (1/2) (1/2) 1 1)).score ∧
        ∀ d ∈ directions,
          inBoundsRect hm3
              ((runClimb hm3 (hm3.width * hm3.height) (mkMovingRect hm3 (1/2) (1/2) 1 1)).x + d.1)
              ((runClimb hm3 (hm3.width * hm3.height) (mkMovingRect hm3 (1/2) (1/2) 1 1)).y + d.2)
              1 1 = true →
            calcScore hm3
                ((runClimb hm3 (hm3.width * hm3.height) (mkMovingRect hm3 (1/2) (1/2) 1 1)).x + d.1)
                ((runClimb hm3 (hm3.width * hm3.height) (mkMovingRect hm3 (1/2) (1/2) 1 1)).y + d.2)
                1 1 ≤
              (runClimb hm3 (hm3.width * hm3.height) (mkMovingRect hm3 (1/2) (1/2) 1 1)).score) :=
  ⟨⟨by norm_num, by unfold inBoundsRect hm3; norm_num⟩,
    hillClimb_terminates hm3 (1/2) (1/2) 1 1 (by norm_num) (by norm_num)
      (by unfold inBoundsRect hm3; norm_num)⟩

end Garden
